import Mathlib

/-!
kvm_gen: byte ranges re-expressed as escaped C string literals

A shallow embedding of `executor/kvm_gen.cc`.

* Standard output is the list of characters written so far; every `printf`
  call appends to it.
* Memory is a flat list of cells addressed by natural numbers; a pointer is an
  address. Reading through a `const unsigned char*` yields the cell's value
  modulo `2^8`, and reading outside the memory is a fault (`none`).
* A `const char*` name is the list of characters of the C string it points to.
-/

namespace KvmGen

/-! ## The `printf` conversions the program uses -/

/-- The conversion `%s`: the characters of the C string, unchanged. -/
def fmt_s (s : List Char) : List Char := s

/-- The conversion `%02x`: the value in lower-case hexadecimal, most significant
digit first, padded on the left with the character `0` up to a field width of
two. Wider values are never truncated. -/
def fmt_02x (v : Nat) : List Char :=
  let ds := Nat.toDigits 16 v
  List.replicate (2 - ds.length) '0' ++ ds

/-- The call `printf("const char %s[] = \"", name)`. -/
def printf_header (out : List Char) (name : List Char) : List Char :=
  out ++ ("const char ".toList ++ fmt_s name ++ "[] = \"".toList)

/-- The call `printf("\\x%02x", v)`. -/
def printf_escape (out : List Char) (v : Nat) : List Char :=
  out ++ ('\\' :: 'x' :: fmt_02x v)

/-- The call `printf("\";\n")`. -/
def printf_trailer (out : List Char) : List Char :=
  out ++ "\";\n".toList

/-- The call `printf("// AUTOGENERATED FILE\n")`. -/
def printf_marker (out : List Char) : List Char :=
  out ++ "// AUTOGENERATED FILE\n".toList

/-! ## Memory -/

/-- The read `*p` through a `const unsigned char*`: the cell at address `p`
as an 8-bit unsigned value, or a fault when `p` is outside the memory. -/
def load8 (mem : List Nat) (p : Nat) : Option Nat :=
  (mem[p]?).map (· % 256)

/-! ## `print` -/

/-- The loop `for (p = start; p < end; p++) printf("\\x%02x", *p);` entered
with the pointer at `p`. -/
def printLoop (mem : List Nat) (end_ : Nat) (p : Nat) (out : List Char) :
    Option (List Char) :=
  if p < end_ then
    match load8 mem p with
    | none => none
    | some v => printLoop mem end_ (p + 1) (printf_escape out v)
  else
    some out
termination_by end_ - p

/-- The function `print(name, start, end)`: the standard output after the call,
or `none` when the loop reads outside the memory. -/
def print (mem : List Nat) (name : List Char) (start end_ : Nat) (out : List Char) :
    Option (List Char) :=
  match printLoop mem end_ start (printf_header out name) with
  | none => none
  | some out1 => some (printf_trailer out1)

/-! ## `main` -/

/-- What the build supplies to the program: the memory image and the address
the linker gives to each array symbol. -/
structure Env where
  mem : List Nat
  addr : String → Nat

/-- The expansion of `PRINT(x)`: the arrays `x` and `x_end` are declared and
`print(#x, x, x##_end)` is called. -/
def PRINT (env : Env) (x : String) (out : List Char) : Option (List Char) :=
  print env.mem x.toList (env.addr x) (env.addr (x ++ "_end")) out

/-- The function `main`: its return value and the standard output at return,
or `none` when one of the calls faults. -/
def main (env : Env) : Option (Int × List Char) := do
  let out := printf_marker []
  let out ← PRINT env "kvm_asm16_cpl3" out
  let out ← PRINT env "kvm_asm32_paged" out
  let out ← PRINT env "kvm_asm32_vm86" out
  let out ← PRINT env "kvm_asm32_paged_vm86" out
  let out ← PRINT env "kvm_asm64_vm86" out
  let out ← PRINT env "kvm_asm64_enable_long" out
  let out ← PRINT env "kvm_asm64_init_vm" out
  let out ← PRINT env "kvm_asm64_vm_exit" out
  let out ← PRINT env "kvm_asm64_cpl3" out
  pure (0, out)

/-! ## Specification-side vocabulary -/

/-- The escape token of one byte value: the text of `printf("\\x%02x", v)`. -/
def escape (v : Nat) : List Char := '\\' :: 'x' :: fmt_02x v

/-- The bytes of the range from `start` up to, not including, `end_`: the
cells there as 8-bit unsigned values. Empty when `end_ ≤ start`. -/
def rangeBytes (mem : List Nat) (start end_ : Nat) : List Nat :=
  ((mem.drop start).take (end_ - start)).map (· % 256)

/-- The declaration line for a name and a byte sequence. -/
def declLine (name : List Char) (b : List Nat) : List Char :=
  "const char ".toList ++ name ++ "[] = \"".toList ++ b.flatMap escape ++ "\";\n".toList

/-- The value of a hexadecimal digit character, in either case. -/
def hexVal (c : Char) : Option Nat :=
  if '0' ≤ c ∧ c ≤ '9' then some (c.toNat - 48)
  else if 'a' ≤ c ∧ c ≤ 'f' then some (c.toNat - 87)
  else if 'A' ≤ c ∧ c ≤ 'F' then some (c.toNat - 55)
  else none

/-- The decoder of a literal body made of 4-character tokens: each token is a
backslash, the letter `x` and two hexadecimal digits `H`, `L`, and stands for
the byte of value `16 * H + L`. Any other text is rejected. -/
def unescape : List Char → Option (List Nat)
  | [] => some []
  | c1 :: c2 :: h :: l :: rest =>
    if c1 = '\\' ∧ c2 = 'x' then
      match hexVal h, hexVal l, unescape rest with
      | some a, some b, some r => some ((16 * a + b) :: r)
      | _, _, _ => none
    else none
  | _ => none

/-- The literal body of a declaration line: the line must end with the closing
quote, a semicolon and a newline; the body is the text between the last quote
character before that ending and the ending, and that opening quote must stand
right after the characters `[] = `. -/
def literalOf (line : List Char) : Option (List Char) :=
  let r := line.reverse
  if "\n;\"".toList.isPrefixOf r then
    let r1 := r.drop 3
    if "\" = ][".toList.isPrefixOf (r1.dropWhile (· ≠ '\"')) then
      some (r1.takeWhile (· ≠ '\"')).reverse
    else none
  else none

/-- The nine array symbols, in the order `main` lists them. -/
def names : List String :=
  ["kvm_asm16_cpl3", "kvm_asm32_paged", "kvm_asm32_vm86", "kvm_asm32_paged_vm86",
   "kvm_asm64_vm86", "kvm_asm64_enable_long", "kvm_asm64_init_vm", "kvm_asm64_vm_exit",
   "kvm_asm64_cpl3"]

/-- The bytes between the symbol `x` and the symbol `x_end`. -/
def symBytes (env : Env) (x : String) : List Nat :=
  rangeBytes env.mem (env.addr x) (env.addr (x ++ "_end"))

/-- The range of the symbol `x` is a valid range of the memory image. -/
def symValid (env : Env) (x : String) : Prop :=
  env.addr x ≤ env.addr (x ++ "_end") ∧ env.addr (x ++ "_end") ≤ env.mem.length

/-- The range of the symbol `x` is one `print` completes on: a valid range or
an inverted one. -/
def symReadable (env : Env) (x : String) : Prop :=
  env.addr (x ++ "_end") ≤ env.addr x ∨ env.addr (x ++ "_end") ≤ env.mem.length

instance (env : Env) (x : String) : Decidable (symValid env x) := by
  unfold symValid; infer_instance

instance (env : Env) (x : String) : Decidable (symReadable env x) := by
  unfold symReadable; infer_instance

/-- The document: the marker line, then one declaration line per symbol. -/
def document (env : Env) : List Char :=
  "// AUTOGENERATED FILE\n".toList ++
    names.flatMap (fun x => declLine x.toList (symBytes env x))

/-- Modelled from the spec: the external build step (assembler and linker)
that gives every named symbol a contiguous byte range with a start address and
an exclusive end address. The objects are laid out one after another from the
address `base`; the table maps `x` to the start and `x_end` to the end. -/
def linkTable : Nat → List (String × List Nat) → List (String × Nat)
  | _, [] => []
  | base, (x, b) :: rest =>
    (x, base) :: (x ++ "_end", base + b.length) :: linkTable (base + b.length) rest

/-- The address a symbol table gives to a symbol (0 when it has none). -/
def lookup : List (String × Nat) → String → Nat
  | [], _ => 0
  | (y, a) :: rest, x => if x = y then a else lookup rest x

/-- Modelled from the spec: the environment the external build step produces
from a list of named byte sequences. -/
def link (objs : List (String × List Nat)) : Env :=
  { mem := (objs.map Prod.snd).flatten, addr := lookup (linkTable 0 objs) }

/-- A small linked image: three bytes under the first symbol, one or two under
some others, empty ranges elsewhere. -/
def sampleEnv : Env :=
  link [("kvm_asm16_cpl3", [0x00, 0x41, 0xFF]), ("kvm_asm32_paged", []),
    ("kvm_asm32_vm86", [0x0A]), ("kvm_asm32_paged_vm86", []), ("kvm_asm64_vm86", []),
    ("kvm_asm64_enable_long", [0x22, 0x5C]), ("kvm_asm64_init_vm", []),
    ("kvm_asm64_vm_exit", []), ("kvm_asm64_cpl3", [0x0D])]

/-- The loop of `print` with a record of the addresses it reads: the same
loop, each iteration also appending the address it dereferences to `reads`. -/
def printLoopTrace (mem : List Nat) (end_ : Nat) (p : Nat) (out : List Char)
    (reads : List Nat) : Option (List Char × List Nat) :=
  if p < end_ then
    match load8 mem p with
    | none => none
    | some v => printLoopTrace mem end_ (p + 1) (printf_escape out v) (reads ++ [p])
  else
    some (out, reads)
termination_by end_ - p

/-- The driver as a function of its list of entries: `main` calls `print` once
per listed entry, in order, each call continuing from the output of the one
before; an entry is a name with the start and end addresses of its range. -/
def driver (mem : List Nat) : List (List Char × Nat × Nat) → List Char → Option (List Char)
  | [], out => some out
  | (name, start, end_) :: rest, out =>
    match print mem name start end_ out with
    | none => none
    | some out1 => driver mem rest out1

/-- The entry `PRINT(x)` hands to `print`. -/
def entryOf (env : Env) (x : String) : List Char × Nat × Nat :=
  (x.toList, env.addr x, env.addr (x ++ "_end"))

/-- The declaration line of an entry: it is made of the entry's name and of the
bytes of the entry's range, nothing else. -/
def lineOf (mem : List Nat) (e : List Char × Nat × Nat) : List Char :=
  declLine e.1 (rangeBytes mem e.2.1 e.2.2)

/-- The range of an entry is a valid range of the memory. -/
def entryValid (mem : List Nat) (e : List Char × Nat × Nat) : Prop :=
  e.2.1 ≤ e.2.2 ∧ e.2.2 ≤ mem.length

instance (mem : List Nat) (e : List Char × Nat × Nat) : Decidable (entryValid mem e) := by
  unfold entryValid; infer_instance

/-- The same nine byte sequences as in `sampleEnv`, linked behind a different
first object so that every address differs. -/
def sampleEnvMoved : Env :=
  { mem := [7, 7] ++ sampleEnv.mem ++ [9], addr := fun x => sampleEnv.addr x + 2 }

/-- Where the greedy decoder stands: before a token, after the backslash, or
inside the run of hexadecimal digits that follows `\x`, with the value read so
far and whether a digit has been read. -/
inductive GreedyState where
  | start : GreedyState
  | slash : GreedyState
  | digits : Nat → Bool → GreedyState

/-- The decoder of a literal body that reads hexadecimal escapes as a C
compiler does: after `\x` it consumes the longest run of hexadecimal digits
that follows (at least one), and the run stands for one byte; a value above
255 is rejected, and so is any text that is not a sequence of such escapes. -/
def greedyGo : GreedyState → List Char → Option (List Nat)
  | .start, [] => some []
  | .start, c :: cs => if c = '\\' then greedyGo .slash cs else none
  | .slash, [] => none
  | .slash, c :: cs => if c = 'x' then greedyGo (.digits 0 false) cs else none
  | .digits acc seen, [] => if seen = true ∧ acc < 256 then some [acc] else none
  | .digits acc seen, c :: cs =>
    match hexVal c with
    | some d => greedyGo (.digits (16 * acc + d) true) cs
    | none =>
      if seen = true ∧ acc < 256 ∧ c = '\\' then
        (greedyGo .slash cs).map (fun r => acc :: r)
      else none

/-- The greedy decoder, from the start of a literal body. -/
def unescapeGreedy (body : List Char) : Option (List Nat) :=
  greedyGo .start body

/-- The literal body `print` produces for a byte sequence: the sequence is the
whole memory, `print` is called on all of it, and the body is extracted from
the line it writes. -/
def bodyOf (name : List Char) (b : List Nat) : Option (List Char) :=
  (print b name 0 b.length []).bind literalOf

/-! ## Basic facts -/

theorem printf_escape_eq (out : List Char) (v : Nat) :
    printf_escape out v = out ++ escape v := rfl

set_option maxRecDepth 1000000 in
/-- For a byte value the conversion `%02x` writes exactly the two hexadecimal
digits of the value. -/
theorem fmt_02x_byte : ∀ v, v < 256 →
    fmt_02x v = [Nat.digitChar (v / 16), Nat.digitChar (v % 16)] := by
  decide

theorem rangeBytes_of_le (mem : List Nat) {start end_ : Nat} (h : end_ ≤ start) :
    rangeBytes mem start end_ = [] := by
  simp [rangeBytes, Nat.sub_eq_zero_of_le h]

theorem rangeBytes_step (mem : List Nat) {p end_ : Nat} (h1 : p < end_)
    (h2 : p < mem.length) :
    rangeBytes mem p end_ = (mem[p] % 256) :: rangeBytes mem (p + 1) end_ := by
  unfold rangeBytes
  rw [List.drop_eq_getElem_cons h2]
  obtain ⟨k, hk⟩ : ∃ k, end_ - p = k + 1 := ⟨end_ - p - 1, by omega⟩
  have hk2 : end_ - (p + 1) = k := by omega
  rw [hk, hk2, List.take_succ_cons, List.map_cons]

/-- The loop, characterised: it completes exactly when the range is empty or
ends inside the memory, and then it has appended the escape tokens of the
bytes of the range, in order. -/
theorem printLoop_eq (mem : List Nat) (end_ : Nat) :
    ∀ (n p : Nat) (out : List Char), end_ - p = n →
      printLoop mem end_ p out =
        if end_ ≤ p ∨ end_ ≤ mem.length then
          some (out ++ (rangeBytes mem p end_).flatMap escape)
        else none := by
  intro n
  induction n with
  | zero =>
    intro p out h
    have hle : end_ ≤ p := by omega
    rw [printLoop]
    simp [Nat.not_lt.mpr hle, hle, rangeBytes_of_le mem hle]
  | succ n ih =>
    intro p out h
    have hlt : p < end_ := by omega
    rw [printLoop]
    simp only [hlt, if_true]
    by_cases hp : p < mem.length
    · have hload : load8 mem p = some (mem[p] % 256) := by
        simp [load8, List.getElem?_eq_getElem hp]
      rw [hload]
      simp only []
      rw [ih (p + 1) _ (by omega), rangeBytes_step mem hlt hp, printf_escape_eq]
      have hc : (end_ ≤ p + 1 ∨ end_ ≤ mem.length) ↔ (end_ ≤ p ∨ end_ ≤ mem.length) := by
        omega
      simp only [hc, List.flatMap_cons, List.append_assoc]
    · have hload : load8 mem p = none := by
        simp [load8, List.getElem?_eq_none (Nat.le_of_not_lt hp)]
      rw [hload]
      have hc : ¬ (end_ ≤ p ∨ end_ ≤ mem.length) := by omega
      simp [hc]

/-- The function `print`, characterised. -/
theorem print_eq (mem : List Nat) (name : List Char) (start end_ : Nat) (out : List Char) :
    print mem name start end_ out =
      if end_ ≤ start ∨ end_ ≤ mem.length then
        some (out ++ declLine name (rangeBytes mem start end_))
      else none := by
  unfold print
  rw [printLoop_eq mem end_ (end_ - start) start _ rfl]
  by_cases hc : end_ ≤ start ∨ end_ ≤ mem.length
  · simp [hc, printf_trailer, printf_header, fmt_s, declLine, List.append_assoc]
  · simp [hc]

/-- The bytes of a range that is laid out as `pre ++ b ++ post`. -/
theorem rangeBytes_append (pre b post : List Nat) :
    rangeBytes (pre ++ b ++ post) pre.length (pre.length + b.length) = b.map (· % 256) := by
  simp [rangeBytes, List.append_assoc]

theorem map_mod_of_bytes {b : List Nat} (hb : ∀ v ∈ b, v < 256) : b.map (· % 256) = b := by
  induction b with
  | nil => rfl
  | cons v b ih =>
    have h1 : v < 256 := hb v (List.mem_cons_self v b)
    have h2 : ∀ w ∈ b, w < 256 := fun w hw => hb w (List.mem_cons_of_mem v hw)
    simp [ih h2, Nat.mod_eq_of_lt h1]

/-- Calling `print` on a byte sequence `b` that sits anywhere in memory. -/
theorem print_bytes (pre b post : List Nat) (name out : List Char)
    (hb : ∀ v ∈ b, v < 256) :
    print (pre ++ b ++ post) name pre.length (pre.length + b.length) out =
      some (out ++ declLine name b) := by
  rw [print_eq, rangeBytes_append, map_mod_of_bytes hb]
  have : pre.length + b.length ≤ (pre ++ b ++ post).length := by
    simp [List.length_append]
  simp [this]

theorem escape_byte {v : Nat} (hv : v < 256) :
    escape v = ['\\', 'x', Nat.digitChar (v / 16), Nat.digitChar (v % 16)] := by
  simp [escape, fmt_02x_byte v hv]

set_option maxRecDepth 1000000 in
/-- Every character of the escape token of a byte value is a backslash, the
letter `x` or a lower-case hexadecimal digit. -/
theorem escape_alphabet : ∀ v, v < 256 →
    ∀ c ∈ ['\\', 'x', Nat.digitChar (v / 16), Nat.digitChar (v % 16)],
      c ∈ "\\x0123456789abcdef".toList := by
  decide

theorem hexVal_digitChar : ∀ d, d < 16 → hexVal (Nat.digitChar d) = some d := by
  decide

theorem mem_body_alphabet {b : List Nat} (hb : ∀ v ∈ b, v < 256) :
    ∀ c ∈ b.flatMap escape, c ∈ "\\x0123456789abcdef".toList := by
  intro c hc
  rw [List.mem_flatMap] at hc
  obtain ⟨v, hv, hcv⟩ := hc
  rw [escape_byte (hb v hv)] at hcv
  exact escape_alphabet v (hb v hv) c hcv

theorem unescape_body {b : List Nat} (hb : ∀ v ∈ b, v < 256) :
    unescape (b.flatMap escape) = some b := by
  induction b with
  | nil => simp [unescape]
  | cons v b ih =>
    have h1 : v < 256 := hb v (List.mem_cons_self v b)
    have h2 : ∀ w ∈ b, w < 256 := fun w hw => hb w (List.mem_cons_of_mem v hw)
    have hd : 16 * (v / 16) + v % 16 = v := Nat.div_add_mod v 16
    rw [List.flatMap_cons, escape_byte h1]
    simp only [List.cons_append, List.nil_append, unescape, and_self, if_true]
    rw [hexVal_digitChar _ (by omega), hexVal_digitChar _ (Nat.mod_lt _ (by decide))]
    have hnil : ([] : List Char).append (b.flatMap escape) = b.flatMap escape := rfl
    rw [hnil, ih h2]
    simp [hd]

theorem takeWhile_append_stop {α : Type} (p : α → Bool) (l : List α) (a : α) (r : List α)
    (hl : ∀ x ∈ l, p x = true) (ha : p a = false) :
    (l ++ a :: r).takeWhile p = l ∧ (l ++ a :: r).dropWhile p = a :: r := by
  induction l with
  | nil => simp [List.takeWhile, List.dropWhile, ha]
  | cons x l ih =>
    have hx : p x = true := hl x (List.mem_cons_self x l)
    have ih2 := ih (fun y hy => hl y (List.mem_cons_of_mem x hy))
    simp [List.takeWhile, List.dropWhile, hx, ih2.1, ih2.2]

/-- The extractor recovers the body of a declaration line, whatever the name,
as long as the body holds no quote character. -/
theorem literalOf_declLine (name : List Char) (b : List Nat)
    (hq : ∀ c ∈ b.flatMap escape, c ≠ '\"') :
    literalOf (declLine name b) = some (b.flatMap escape) := by
  have hrev : (declLine name b).reverse =
      "\n;\"".toList ++ ((b.flatMap escape).reverse ++
        '\"' :: (" = ][".toList ++ name.reverse ++ "const char ".toList.reverse)) := by
    simp [declLine, List.reverse_append]
  have hstop := takeWhile_append_stop (fun c : Char => decide (c ≠ '\"'))
    (b.flatMap escape).reverse '\"'
    (" = ][".toList ++ name.reverse ++ "const char ".toList.reverse)
    (by intro x hx; simpa using hq x (List.mem_reverse.mp hx)) (by simp)
  unfold literalOf
  simp only [hrev]
  have hdrop : ("\n;\"".toList ++ ((b.flatMap escape).reverse ++
        '\"' :: (" = ][".toList ++ name.reverse ++ "const char ".toList.reverse))).drop 3 =
      (b.flatMap escape).reverse ++
        '\"' :: (" = ][".toList ++ name.reverse ++ "const char ".toList.reverse) := rfl
  rw [hdrop, hstop.1, hstop.2]
  simp

/-- C1. Round trip: for every name and every byte sequence `b` (any length,
every byte value from 0 to 255), wherever `b` lies in memory, extracting the
literal body from the line `print` writes and decoding its `\xHH` tokens gives
back exactly `b`. -/
theorem print_roundtrip (name : List Char) (pre b post : List Nat)
    (hb : ∀ v ∈ b, v < 256) :
    ((print (pre ++ b ++ post) name pre.length (pre.length + b.length) []).bind
      literalOf).bind unescape = some b := by
  rw [print_bytes pre b post name [] hb]
  have hq : ∀ c ∈ b.flatMap escape, c ≠ '\"' := by
    intro c hc hcq
    have := mem_body_alphabet hb c hc
    rw [hcq] at this
    revert this
    decide
  simp [literalOf_declLine name b hq, unescape_body hb]

theorem print_roundtrip_witness :
    (∀ v ∈ [0, 65, 255], v < 256) ∧
    ((print ([7] ++ [0, 65, 255] ++ [9]) "sample".toList 1 4 []).bind literalOf).bind unescape =
      some [0, 65, 255] :=
  ⟨by decide, print_roundtrip "sample".toList [7] [0, 65, 255] [9] (by decide)⟩

theorem body_explicit {b : List Nat} (hb : ∀ v ∈ b, v < 256) :
    b.flatMap escape =
      b.flatMap (fun v => ['\\', 'x', Nat.digitChar (v / 16), Nat.digitChar (v % 16)]) := by
  induction b with
  | nil => rfl
  | cons v b ih =>
    have h1 : v < 256 := hb v (List.mem_cons_self v b)
    have h2 : ∀ w ∈ b, w < 256 := fun w hw => hb w (List.mem_cons_of_mem v hw)
    rw [List.flatMap_cons, List.flatMap_cons, ih h2, escape_byte h1]

/-- C2. Exact output form: for every name and every byte sequence `b`, wherever
`b` lies in memory, `print` appends to the standard output exactly
`const char `, the name, `[] = "`, then for each byte of `b` in order the token
made of a backslash, `x` and the two lower-case hexadecimal digits of the byte,
then `";` and a newline. -/
theorem print_output_form (name out : List Char) (pre b post : List Nat)
    (hb : ∀ v ∈ b, v < 256) :
    print (pre ++ b ++ post) name pre.length (pre.length + b.length) out =
      some (out ++ ("const char ".toList ++ name ++ "[] = \"".toList ++
        b.flatMap (fun v => ['\\', 'x', Nat.digitChar (v / 16), Nat.digitChar (v % 16)]) ++
        "\";\n".toList)) := by
  rw [print_bytes pre b post name out hb, declLine, body_explicit hb]

theorem print_output_form_witness :
    (∀ v ∈ [10, 200], v < 256) ∧
    print ([1, 2] ++ [10, 200] ++ [3]) "blob".toList 2 4 "// x\n".toList =
      some ("// x\nconst char blob[] = \"\\x0a\\xc8\";\n".toList) :=
  ⟨by decide, print_output_form "blob".toList "// x\n".toList [1, 2] [10, 200] [3] (by decide)⟩

/-- C4. End-to-end example: `print` applied to the name `sample` and a range
holding the three bytes 0x00, 0x41, 0xFF writes exactly the line
`const char sample[] = "\x00\x41\xff";` followed by a newline. -/
theorem print_sample :
    print [0x00, 0x41, 0xFF] "sample".toList 0 3 [] =
      some "const char sample[] = \"\\x00\\x41\\xff\";\n".toList := by
  rw [print_eq]
  decide

/-- C5. Empty range: for every memory, every name and every position `start`,
`print` called with `end = start` appends exactly `const char <name>[] = "";`
and a newline: no escape token stands between the two quote characters. -/
theorem print_empty_range (mem : List Nat) (name out : List Char) (start : Nat) :
    print mem name start start out =
      some (out ++ ("const char ".toList ++ name ++ "[] = \"\";\n".toList)) := by
  rw [print_eq, rangeBytes_of_le mem (Nat.le_refl start)]
  simp [declLine]

theorem rangeBytes_getElem? (mem : List Nat) (start end_ i : Nat) :
    (rangeBytes mem start end_)[i]? =
      if i < end_ - start then load8 mem (start + i) else none := by
  unfold rangeBytes load8
  rw [List.getElem?_map]
  by_cases h : i < end_ - start
  · simp [h, List.getElem?_take, List.getElem?_drop]
  · simp [h, List.getElem?_take]

theorem rangeBytes_length (mem : List Nat) {start end_ : Nat} (h : end_ ≤ mem.length) :
    (rangeBytes mem start end_).length = end_ - start := by
  simp [rangeBytes, List.length_take, List.length_drop]
  omega

theorem body_length (b : List Nat) (hb : ∀ v ∈ b, v < 256) :
    (b.flatMap escape).length = 4 * b.length := by
  induction b with
  | nil => rfl
  | cons v b ih =>
    have h1 : v < 256 := hb v (List.mem_cons_self v b)
    have h2 : ∀ w ∈ b, w < 256 := fun w hw => hb w (List.mem_cons_of_mem v hw)
    rw [List.flatMap_cons, List.length_append, ih h2, escape_byte h1]
    simp only [List.length_cons, List.length_nil]
    omega

set_option maxRecDepth 1000000 in
theorem digitChar_hex : ∀ d, d < 16 → Nat.digitChar d ∈ "0123456789abcdef".toList := by
  decide

/-- C6. Fixed-width escape: for every byte value `v` the call that writes its
escape token appends a backslash, the letter `x` and exactly two lower-case
hexadecimal digits whose value is `v`, so the token is 4 characters long, with
a leading `0` digit when `v < 16` (byte 0x0A gives `\x0a`); and for every byte
sequence `b` the literal body `print` writes has length `4 * length b`. -/
theorem escape_fixed_width (v : Nat) (hv : v < 256) (name out : List Char)
    (pre b post : List Nat) (hb : ∀ w ∈ b, w < 256) :
    (∃ h l : Char, ∃ H L : Nat, printf_escape out v = out ++ ['\\', 'x', h, l] ∧
        h ∈ "0123456789abcdef".toList ∧ l ∈ "0123456789abcdef".toList ∧
        hexVal h = some H ∧ hexVal l = some L ∧ 16 * H + L = v) ∧
    (escape v).length = 4 ∧
    (v < 16 → ∃ l : Char, escape v = ['\\', 'x', '0', l]) ∧
    escape 0x0A = "\\x0a".toList ∧
    print (pre ++ b ++ post) name pre.length (pre.length + b.length) out =
      some (out ++ ("const char ".toList ++ name ++ "[] = \"".toList ++
        b.flatMap escape ++ "\";\n".toList)) ∧
    (b.flatMap escape).length = 4 * b.length := by
  have hd : v / 16 < 16 := by omega
  have hm : v % 16 < 16 := Nat.mod_lt _ (by decide)
  refine ⟨⟨Nat.digitChar (v / 16), Nat.digitChar (v % 16), v / 16, v % 16,
    by rw [printf_escape_eq, escape_byte hv],
    digitChar_hex _ hd, digitChar_hex _ hm, hexVal_digitChar _ hd, hexVal_digitChar _ hm,
    Nat.div_add_mod v 16⟩, ?_, ?_, ?_, ?_, body_length b hb⟩
  · rw [escape_byte hv]; rfl
  · intro h16
    refine ⟨Nat.digitChar (v % 16), ?_⟩
    rw [escape_byte hv, Nat.div_eq_of_lt h16]
    rfl
  · decide
  · rw [print_bytes pre b post name out hb, declLine]

theorem escape_fixed_width_witness :
    200 < 256 ∧ (∀ w ∈ [0, 128, 255], w < 256) ∧
    escape 200 = "\\xc8".toList ∧ (escape 200).length = 4 ∧
    ([0, 128, 255].flatMap escape).length = 4 * 3 :=
  have h := escape_fixed_width 200 (by decide) "k".toList [] [5] [0, 128, 255] []
    (by decide)
  ⟨by decide, by decide, by decide, h.2.1, h.2.2.2.2.2⟩

/-- C7. Exclusive end: for every memory and positions `start ≤ end` inside it,
`print` writes exactly `end - start` escape tokens, the token of index `i`
being a backslash, `x` and the two lower-case hexadecimal digits of the byte
held by the cell at position `start + i`; and any memory that agrees with this
one on the positions `start`, ..., `end - 1` gives the same output, so the cell
at position `end` and every cell outside the range have no influence. -/
theorem print_exclusive_end (mem : List Nat) (name out : List Char) (start end_ : Nat)
    (h1 : start ≤ end_) (h2 : end_ ≤ mem.length) :
    (∃ toks : List (List Char),
        print mem name start end_ out =
          some (out ++ ("const char ".toList ++ name ++ "[] = \"".toList ++
            toks.flatten ++ "\";\n".toList)) ∧
        toks.length = end_ - start ∧
        ∀ i, i < end_ - start →
          ∃ cell : Nat, mem[start + i]? = some cell ∧
            toks[i]? = some ['\\', 'x', Nat.digitChar (cell % 256 / 16),
              Nat.digitChar (cell % 256 % 16)]) ∧
    ∀ mem2 : List Nat, (∀ i, start ≤ i → i < end_ → mem2[i]? = mem[i]?) →
      print mem2 name start end_ out = print mem name start end_ out := by
  constructor
  · refine ⟨(rangeBytes mem start end_).map escape, ?_, ?_, ?_⟩
    · rw [print_eq, declLine, List.flatMap_def]
      simp [h2]
    · rw [List.length_map, rangeBytes_length mem h2]
    · intro i hi
      have hlt : start + i < mem.length := by omega
      refine ⟨mem[start + i], List.getElem?_eq_getElem hlt, ?_⟩
      rw [List.getElem?_map, rangeBytes_getElem?, if_pos hi]
      have hload : load8 mem (start + i) = some (mem[start + i] % 256) := by
        simp [load8, List.getElem?_eq_getElem hlt]
      rw [hload, Option.map_some', escape_byte (Nat.mod_lt _ (by decide))]
  · intro mem2 hagree
    have hbytes : rangeBytes mem2 start end_ = rangeBytes mem start end_ := by
      apply List.ext_getElem?
      intro i
      rw [rangeBytes_getElem?, rangeBytes_getElem?]
      by_cases hi : i < end_ - start
      · simp [hi, load8, hagree (start + i) (by omega) (by omega)]
      · simp [hi]
    have hcond : (end_ ≤ start ∨ end_ ≤ mem2.length) := by
      by_cases he : end_ ≤ start
      · exact Or.inl he
      · right
        have hlast := hagree (end_ - 1) (by omega) (by omega)
        have hin : end_ - 1 < mem.length := by omega
        rw [List.getElem?_eq_getElem hin] at hlast
        by_contra hc
        rw [List.getElem?_eq_none (by omega)] at hlast
        exact Option.noConfusion hlast
    rw [print_eq, print_eq, hbytes]
    simp [hcond, h2]

theorem print_exclusive_end_witness :
    (1 ≤ 3 ∧ 3 ≤ [9, 0, 65, 255, 7].length) ∧
    print [9, 0, 65, 255, 7] "s".toList 1 3 [] =
      some "const char s[] = \"\\x00\\x41\";\n".toList ∧
    print [200, 0, 65, 1] "s".toList 1 3 [] =
      some "const char s[] = \"\\x00\\x41\";\n".toList := by
  obtain ⟨⟨toks, hp, hlen, htok⟩, hind⟩ :=
    print_exclusive_end [9, 0, 65, 255, 7] "s".toList [] 1 3 (by decide) (by decide)
  obtain ⟨c0, hc0, ht0⟩ := htok 0 (by decide)
  obtain ⟨c1, hc1, ht1⟩ := htok 1 (by decide)
  have e0 : c0 = 0 := (Option.some.inj hc0).symm
  have e1 : c1 = 65 := (Option.some.inj hc1).symm
  subst e0 e1
  have htoks : toks = ["\\x00".toList, "\\x41".toList] := by
    match toks, hlen, ht0, ht1 with
    | [a, b], _, ht0, ht1 =>
      have ha : a = "\\x00".toList := Option.some.inj ht0
      have hb : b = "\\x41".toList := Option.some.inj ht1
      rw [ha, hb]
  have htext : print [9, 0, 65, 255, 7] "s".toList 1 3 [] =
      some "const char s[] = \"\\x00\\x41\";\n".toList := by
    rw [hp, htoks]
    rfl
  refine ⟨by decide, htext, ?_⟩
  rw [← htext]
  apply hind
  intro i hi1 hi2
  have hi : i = 1 ∨ i = 2 := by omega
  rcases hi with rfl | rfl <;> rfl

theorem symValid_readable {env : Env} {x : String} (h : symValid env x) :
    symReadable env x := Or.inr h.2

theorem PRINT_eq (env : Env) (x : String) (out : List Char) :
    PRINT env x out =
      if symReadable env x then some (out ++ declLine x.toList (symBytes env x)) else none := by
  unfold PRINT symReadable symBytes
  rw [print_eq]

theorem main_eq (env : Env) :
    main env = if ∀ x ∈ names, symReadable env x then some (0, document env) else none := by
  simp only [names, List.forall_mem_cons, List.not_mem_nil, false_implies, forall_const,
    and_true, List.mem_cons, forall_eq_or_imp, forall_eq, List.mem_singleton]
  by_cases h1 : symReadable env "kvm_asm16_cpl3"; swap
  · simp [main, PRINT_eq, h1]
  by_cases h2 : symReadable env "kvm_asm32_paged"; swap
  · simp [main, PRINT_eq, h1, h2]
  by_cases h3 : symReadable env "kvm_asm32_vm86"; swap
  · simp [main, PRINT_eq, h1, h2, h3]
  by_cases h4 : symReadable env "kvm_asm32_paged_vm86"; swap
  · simp [main, PRINT_eq, h1, h2, h3, h4]
  by_cases h5 : symReadable env "kvm_asm64_vm86"; swap
  · simp [main, PRINT_eq, h1, h2, h3, h4, h5]
  by_cases h6 : symReadable env "kvm_asm64_enable_long"; swap
  · simp [main, PRINT_eq, h1, h2, h3, h4, h5, h6]
  by_cases h7 : symReadable env "kvm_asm64_init_vm"; swap
  · simp [main, PRINT_eq, h1, h2, h3, h4, h5, h6, h7]
  by_cases h8 : symReadable env "kvm_asm64_vm_exit"; swap
  · simp [main, PRINT_eq, h1, h2, h3, h4, h5, h6, h7, h8]
  by_cases h9 : symReadable env "kvm_asm64_cpl3"; swap
  · simp [main, PRINT_eq, h1, h2, h3, h4, h5, h6, h7, h8, h9]
  simp [main, PRINT_eq, h1, h2, h3, h4, h5, h6, h7, h8, h9, document, names, printf_marker,
    List.append_assoc]

theorem main_of_valid (env : Env) (h : ∀ x ∈ names, symValid env x) :
    main env = some (0, document env) := by
  rw [main_eq, if_pos (fun x hx => symValid_readable (h x hx))]

/-- The ranges of a linked image are valid and hold the linked byte sequences. -/
theorem link_ranges (b1 b2 b3 b4 b5 b6 b7 b8 b9 : List Nat) :
    let env := link [("kvm_asm16_cpl3", b1), ("kvm_asm32_paged", b2),
      ("kvm_asm32_vm86", b3), ("kvm_asm32_paged_vm86", b4), ("kvm_asm64_vm86", b5),
      ("kvm_asm64_enable_long", b6), ("kvm_asm64_init_vm", b7),
      ("kvm_asm64_vm_exit", b8), ("kvm_asm64_cpl3", b9)]
    (∀ x ∈ names, symValid env x) ∧
    symBytes env "kvm_asm16_cpl3" = b1.map (· % 256) ∧
    symBytes env "kvm_asm32_paged" = b2.map (· % 256) ∧
    symBytes env "kvm_asm32_vm86" = b3.map (· % 256) ∧
    symBytes env "kvm_asm32_paged_vm86" = b4.map (· % 256) ∧
    symBytes env "kvm_asm64_vm86" = b5.map (· % 256) ∧
    symBytes env "kvm_asm64_enable_long" = b6.map (· % 256) ∧
    symBytes env "kvm_asm64_init_vm" = b7.map (· % 256) ∧
    symBytes env "kvm_asm64_vm_exit" = b8.map (· % 256) ∧
    symBytes env "kvm_asm64_cpl3" = b9.map (· % 256) := by
  intro env
  refine ⟨?_, ?_, ?_, ?_, ?_, ?_, ?_, ?_, ?_, ?_⟩
  · simp [env, names, symValid, link, linkTable, lookup]
    omega
  · simpa [env, symBytes, link, linkTable, lookup, List.append_assoc] using
      rangeBytes_append [] b1 (b2 ++ b3 ++ b4 ++ b5 ++ b6 ++ b7 ++ b8 ++ b9)
  · simpa [env, symBytes, link, linkTable, lookup, List.append_assoc] using
      rangeBytes_append b1 b2 (b3 ++ b4 ++ b5 ++ b6 ++ b7 ++ b8 ++ b9)
  · simpa [env, symBytes, link, linkTable, lookup, List.append_assoc, Nat.add_assoc] using
      rangeBytes_append (b1 ++ b2) b3 (b4 ++ b5 ++ b6 ++ b7 ++ b8 ++ b9)
  · simpa [env, symBytes, link, linkTable, lookup, List.append_assoc, Nat.add_assoc] using
      rangeBytes_append (b1 ++ b2 ++ b3) b4 (b5 ++ b6 ++ b7 ++ b8 ++ b9)
  · simpa [env, symBytes, link, linkTable, lookup, List.append_assoc, Nat.add_assoc] using
      rangeBytes_append (b1 ++ b2 ++ b3 ++ b4) b5 (b6 ++ b7 ++ b8 ++ b9)
  · simpa [env, symBytes, link, linkTable, lookup, List.append_assoc, Nat.add_assoc] using
      rangeBytes_append (b1 ++ b2 ++ b3 ++ b4 ++ b5) b6 (b7 ++ b8 ++ b9)
  · simpa [env, symBytes, link, linkTable, lookup, List.append_assoc, Nat.add_assoc] using
      rangeBytes_append (b1 ++ b2 ++ b3 ++ b4 ++ b5 ++ b6) b7 (b8 ++ b9)
  · simpa [env, symBytes, link, linkTable, lookup, List.append_assoc, Nat.add_assoc] using
      rangeBytes_append (b1 ++ b2 ++ b3 ++ b4 ++ b5 ++ b6 ++ b7) b8 b9
  · simpa [env, symBytes, link, linkTable, lookup, List.append_assoc, Nat.add_assoc] using
      rangeBytes_append (b1 ++ b2 ++ b3 ++ b4 ++ b5 ++ b6 ++ b7 ++ b8) b9 []

theorem rangeBytes_lt (mem : List Nat) (start end_ : Nat) :
    ∀ v ∈ rangeBytes mem start end_, v < 256 := by
  intro v hv
  simp only [rangeBytes, List.mem_map] at hv
  obtain ⟨w, _, hw⟩ := hv
  rw [← hw]
  exact Nat.mod_lt _ (by decide)

theorem body_no_newline {b : List Nat} (hb : ∀ v ∈ b, v < 256) :
    (b.flatMap escape).count '\n' = 0 := by
  rw [List.count_eq_zero]
  intro hc
  have := mem_body_alphabet hb _ hc
  revert this
  decide

theorem declLine_count_newline {name : List Char} (hn : '\n' ∉ name) {b : List Nat}
    (hb : ∀ v ∈ b, v < 256) : (declLine name b).count '\n' = 1 := by
  have h1 : name.count '\n' = 0 := List.count_eq_zero.mpr hn
  have h2 : "const char ".toList.count '\n' = 0 := by decide
  have h3 : "[] = \"".toList.count '\n' = 0 := by decide
  have h4 : "\";\n".toList.count '\n' = 1 := by decide
  simp only [declLine, List.count_append, h1, h2, h3, h4, body_no_newline hb]

theorem declLine_getLast (name : List Char) (b : List Nat) :
    (declLine name b).getLast? = some '\n' := by
  have h4 : "\";\n".toList.getLast? = some '\n' := by decide
  rw [declLine, List.getLast?_append, h4]
  rfl

theorem names_no_newline : ∀ x ∈ names, '\n' ∉ x.toList := by decide

theorem document_count_newline (env : Env) : (document env).count '\n' = 10 := by
  have hm : "// AUTOGENERATED FILE\n".toList.count '\n' = 1 := by decide
  have hl : ∀ x ∈ names, (declLine x.toList (symBytes env x)).count '\n' = 1 :=
    fun x hx => declLine_count_newline (names_no_newline x hx) (rangeBytes_lt _ _ _)
  simp only [names, List.forall_mem_cons, List.not_mem_nil, false_implies, forall_const,
    and_true, List.mem_cons, forall_eq_or_imp, forall_eq, List.mem_singleton] at hl
  obtain ⟨h1, h2, h3, h4, h5, h6, h7, h8, h9⟩ := hl
  simp only [document, names, List.flatMap_cons, List.flatMap_nil, List.count_append,
    List.count_nil, hm, h1, h2, h3, h4, h5, h6, h7, h8, h9]

theorem document_getLast (env : Env) : (document env).getLast? = some '\n' := by
  simp only [document, names, List.flatMap_cons, List.flatMap_nil, List.append_nil]
  simp only [← List.append_assoc]
  rw [List.getLast?_append, declLine_getLast]
  rfl

/-- C3. Driver document: for every environment in which the nine symbol ranges
are valid, the text `main` writes is the line `// AUTOGENERATED FILE` followed
by exactly nine declaration lines, one per symbol and in the listed order, each
holding the bytes of that symbol's range; nothing else is written. -/
theorem main_document (env : Env) (h : ∀ x ∈ names, symValid env x) :
    (main env).map Prod.snd =
      some ("// AUTOGENERATED FILE\n".toList ++
        declLine "kvm_asm16_cpl3".toList (symBytes env "kvm_asm16_cpl3") ++
        declLine "kvm_asm32_paged".toList (symBytes env "kvm_asm32_paged") ++
        declLine "kvm_asm32_vm86".toList (symBytes env "kvm_asm32_vm86") ++
        declLine "kvm_asm32_paged_vm86".toList (symBytes env "kvm_asm32_paged_vm86") ++
        declLine "kvm_asm64_vm86".toList (symBytes env "kvm_asm64_vm86") ++
        declLine "kvm_asm64_enable_long".toList (symBytes env "kvm_asm64_enable_long") ++
        declLine "kvm_asm64_init_vm".toList (symBytes env "kvm_asm64_init_vm") ++
        declLine "kvm_asm64_vm_exit".toList (symBytes env "kvm_asm64_vm_exit") ++
        declLine "kvm_asm64_cpl3".toList (symBytes env "kvm_asm64_cpl3")) := by
  rw [main_of_valid env h]
  simp [document, names, List.append_assoc]

set_option maxRecDepth 1000000 in
theorem main_document_witness :
    (∀ x ∈ names, symValid sampleEnv x) ∧
    (main sampleEnv).map Prod.snd =
      some ("// AUTOGENERATED FILE\n" ++
        "const char kvm_asm16_cpl3[] = \"\\x00\\x41\\xff\";\n" ++
        "const char kvm_asm32_paged[] = \"\";\n" ++
        "const char kvm_asm32_vm86[] = \"\\x0a\";\n" ++
        "const char kvm_asm32_paged_vm86[] = \"\";\n" ++
        "const char kvm_asm64_vm86[] = \"\";\n" ++
        "const char kvm_asm64_enable_long[] = \"\\x22\\x5c\";\n" ++
        "const char kvm_asm64_init_vm[] = \"\";\n" ++
        "const char kvm_asm64_vm_exit[] = \"\";\n" ++
        "const char kvm_asm64_cpl3[] = \"\\x0d\";\n").toList :=
  ⟨by decide, (main_document sampleEnv (by decide)).trans (by decide)⟩

/-- The nine byte sequences handed to the linker come out of `main` as the nine
declaration lines, in the listed order. -/
theorem main_link_document (b1 b2 b3 b4 b5 b6 b7 b8 b9 : List Nat)
    (hb : ∀ b ∈ [b1, b2, b3, b4, b5, b6, b7, b8, b9], ∀ v ∈ b, v < 256) :
    main (link [("kvm_asm16_cpl3", b1), ("kvm_asm32_paged", b2),
      ("kvm_asm32_vm86", b3), ("kvm_asm32_paged_vm86", b4), ("kvm_asm64_vm86", b5),
      ("kvm_asm64_enable_long", b6), ("kvm_asm64_init_vm", b7),
      ("kvm_asm64_vm_exit", b8), ("kvm_asm64_cpl3", b9)]) =
      some (0, "// AUTOGENERATED FILE\n".toList ++
        declLine "kvm_asm16_cpl3".toList b1 ++
        declLine "kvm_asm32_paged".toList b2 ++
        declLine "kvm_asm32_vm86".toList b3 ++
        declLine "kvm_asm32_paged_vm86".toList b4 ++
        declLine "kvm_asm64_vm86".toList b5 ++
        declLine "kvm_asm64_enable_long".toList b6 ++
        declLine "kvm_asm64_init_vm".toList b7 ++
        declLine "kvm_asm64_vm_exit".toList b8 ++
        declLine "kvm_asm64_cpl3".toList b9) := by
  obtain ⟨hv, h1, h2, h3, h4, h5, h6, h7, h8, h9⟩ := link_ranges b1 b2 b3 b4 b5 b6 b7 b8 b9
  simp only [List.forall_mem_cons, List.not_mem_nil, false_implies, forall_const,
    and_true, List.mem_cons, forall_eq_or_imp, forall_eq, List.mem_singleton] at hb
  obtain ⟨g1, g2, g3, g4, g5, g6, g7, g8, g9⟩ := hb
  rw [main_of_valid _ hv]
  simp only [document, names, List.flatMap_cons, List.flatMap_nil, List.append_nil,
    h1, h2, h3, h4, h5, h6, h7, h8, h9, map_mod_of_bytes g1, map_mod_of_bytes g2,
    map_mod_of_bytes g3, map_mod_of_bytes g4, map_mod_of_bytes g5, map_mod_of_bytes g6,
    map_mod_of_bytes g7, map_mod_of_bytes g8, map_mod_of_bytes g9, List.append_assoc]

/-- C8. One line per entry: for every name without a newline character and
every byte sequence (bytes 0x0A and 0x0D included), the line `print` writes
holds exactly one newline character, its last character; and the document
`main` writes holds exactly ten newline characters and ends with one, whatever
the bytes of the nine valid ranges are. -/
theorem print_one_line (name : List Char) (hn : '\n' ∉ name) (pre b post : List Nat)
    (env : Env) (hv : ∀ x ∈ names, symValid env x) :
    (∃ line, print (pre ++ b ++ post) name pre.length (pre.length + b.length) [] = some line ∧
      line.count '\n' = 1 ∧ line.getLast? = some '\n') ∧
    (∃ doc, (main env).map Prod.snd = some doc ∧
      doc.count '\n' = 10 ∧ doc.getLast? = some '\n') := by
  constructor
  · refine ⟨declLine name (rangeBytes (pre ++ b ++ post) pre.length (pre.length + b.length)),
      ?_, declLine_count_newline hn (rangeBytes_lt _ _ _), declLine_getLast _ _⟩
    rw [print_eq]
    have : pre.length + b.length ≤ (pre ++ b ++ post).length := by
      simp [List.length_append]
    simp [this]
  · exact ⟨document env, by rw [main_of_valid env hv]; rfl, document_count_newline env,
      document_getLast env⟩

set_option maxRecDepth 1000000 in
theorem print_one_line_witness :
    '\n' ∉ "cr_lf".toList ∧ (∀ x ∈ names, symValid sampleEnv x) ∧
    (∃ line, print ([] ++ [0x0A, 0x0D, 0x0A] ++ []) "cr_lf".toList 0 3 [] = some line ∧
      line.count '\n' = 1 ∧ line.getLast? = some '\n') ∧
    (∃ doc, (main sampleEnv).map Prod.snd = some doc ∧
      doc.count '\n' = 10 ∧ doc.getLast? = some '\n') :=
  ⟨by decide, by decide,
    print_one_line "cr_lf".toList (by decide) [] [0x0A, 0x0D, 0x0A] [] sampleEnv (by decide)⟩

theorem printLoopTrace_eq (mem : List Nat) (end_ : Nat) :
    ∀ (n p : Nat) (out : List Char) (reads : List Nat), end_ - p = n →
      printLoopTrace mem end_ p out reads =
        if end_ ≤ p ∨ end_ ≤ mem.length then
          some (out ++ (rangeBytes mem p end_).flatMap escape,
            reads ++ List.range' p (end_ - p))
        else none := by
  intro n
  induction n with
  | zero =>
    intro p out reads h
    have hle : end_ ≤ p := by omega
    rw [printLoopTrace]
    simp [Nat.not_lt.mpr hle, hle, rangeBytes_of_le mem hle, h]
  | succ n ih =>
    intro p out reads h
    have hlt : p < end_ := by omega
    rw [printLoopTrace]
    simp only [hlt, if_true]
    by_cases hp : p < mem.length
    · have hload : load8 mem p = some (mem[p] % 256) := by
        simp [load8, List.getElem?_eq_getElem hp]
      rw [hload]
      simp only []
      rw [ih (p + 1) _ _ (by omega), rangeBytes_step mem hlt hp, printf_escape_eq]
      have hc : (end_ ≤ p + 1 ∨ end_ ≤ mem.length) ↔ (end_ ≤ p ∨ end_ ≤ mem.length) := by
        omega
      have hr : end_ - p = (end_ - (p + 1)) + 1 := by omega
      have hrange : List.range' p (end_ - p) = p :: List.range' (p + 1) (end_ - (p + 1)) := by
        rw [hr]; rfl
      simp only [hc, hrange, List.flatMap_cons, List.append_assoc, List.singleton_append]
    · have hload : load8 mem p = none := by
        simp [load8, List.getElem?_eq_none (Nat.le_of_not_lt hp)]
      rw [hload]
      have hc : ¬ (end_ ≤ p ∨ end_ ≤ mem.length) := by omega
      simp [hc]

/-- The instrumented loop writes what the loop of `print` writes. -/
theorem printLoopTrace_out (mem : List Nat) (end_ p : Nat) (out : List Char)
    (reads : List Nat) :
    (printLoopTrace mem end_ p out reads).map Prod.fst = printLoop mem end_ p out := by
  rw [printLoopTrace_eq mem end_ (end_ - p) p out reads rfl,
    printLoop_eq mem end_ (end_ - p) p out rfl]
  by_cases hc : end_ ≤ p ∨ end_ ≤ mem.length
  · simp [hc]
  · simp [hc]

/-- C9. The transcoder cannot fail on a valid range: for every memory and
`start ≤ end ≤` its length, the loop of `print` completes; it runs
`end - start` iterations, reading the addresses `start`, ..., `end - 1` in
order, each of them inside the range and inside the memory, so the fault
branch is never taken and `print` returns a complete line. -/
theorem print_cannot_fail (mem : List Nat) (name out : List Char) (start end_ : Nat)
    (h1 : start ≤ end_) (h2 : end_ ≤ mem.length) :
    ∃ (out1 : List Char) (reads : List Nat),
      printLoopTrace mem end_ start (printf_header out name) [] = some (out1, reads) ∧
      printLoop mem end_ start (printf_header out name) = some out1 ∧
      reads = List.range' start (end_ - start) ∧
      reads.length = end_ - start ∧
      (∀ q ∈ reads, start ≤ q ∧ q < end_ ∧ q < mem.length ∧ (load8 mem q).isSome = true) ∧
      print mem name start end_ out = some (printf_trailer out1) ∧
      printf_trailer out1 = out ++ ("const char ".toList ++ name ++ "[] = \"".toList ++
        (rangeBytes mem start end_).flatMap escape ++ "\";\n".toList) := by
  refine ⟨printf_header out name ++ (rangeBytes mem start end_).flatMap escape,
    List.range' start (end_ - start), ?_, ?_, rfl, ?_, ?_, ?_, ?_⟩
  · rw [printLoopTrace_eq mem end_ (end_ - start) start _ _ rfl]
    simp [h2]
  · rw [printLoop_eq mem end_ (end_ - start) start _ rfl]
    simp [h2]
  · simp
  · intro q hq
    rw [List.mem_range'_1] at hq
    have hlt : q < mem.length := by omega
    refine ⟨hq.1, by omega, hlt, ?_⟩
    simp [load8, List.getElem?_eq_getElem hlt]
  · unfold print
    rw [printLoop_eq mem end_ (end_ - start) start _ rfl]
    simp [h2]
  · simp [printf_trailer, printf_header, fmt_s, List.append_assoc]

theorem print_cannot_fail_witness :
    (1 ≤ 3 ∧ 3 ≤ [9, 0, 65, 255, 7].length) ∧
    ∃ (out1 : List Char) (reads : List Nat),
      printLoopTrace [9, 0, 65, 255, 7] 3 1 (printf_header [] "s".toList) [] =
        some (out1, reads) ∧
      reads = [1, 2] ∧
      print [9, 0, 65, 255, 7] "s".toList 1 3 [] = some (printf_trailer out1) :=
  ⟨by decide,
    match print_cannot_fail [9, 0, 65, 255, 7] "s".toList [] 1 3 (by decide) (by decide) with
    | ⟨out1, reads, h1, _, h3, _, _, h6, _⟩ => ⟨out1, reads, h1, h3, h6⟩⟩

/-- C10. Exit status: whenever the nine ranges are valid `main` returns 0 after
writing the whole document; and on no environment does it return a non-zero
value or return with less than the marker line and the nine declarations
written. -/
theorem main_exit_status (env : Env) (h : ∀ x ∈ names, symValid env x) :
    main env = some (0, document env) ∧
    ∀ (env2 : Env) (code : Int) (doc : List Char), main env2 = some (code, doc) →
      code = 0 ∧ doc = document env2 := by
  refine ⟨main_of_valid env h, ?_⟩
  intro env2 code doc hm
  rw [main_eq] at hm
  by_cases hc : ∀ x ∈ names, symReadable env2 x
  · rw [if_pos hc] at hm
    have := Option.some.inj hm
    exact ⟨(congrArg Prod.fst this).symm, (congrArg Prod.snd this).symm⟩
  · rw [if_neg hc] at hm
    exact Option.noConfusion hm

theorem main_exit_status_witness :
    (∀ x ∈ names, symValid sampleEnv x) ∧ (main sampleEnv).map Prod.fst = some 0 :=
  ⟨by decide, by rw [(main_exit_status sampleEnv (by decide)).1]; rfl⟩

/-- The driver, characterised: it completes exactly when `print` completes on
every entry, and then it has appended the entries' lines in list order. -/
theorem driver_eq (mem : List Nat) :
    ∀ (es : List (List Char × Nat × Nat)) (out : List Char),
      driver mem es out =
        if ∀ e ∈ es, (e.2.2 ≤ e.2.1 ∨ e.2.2 ≤ mem.length) then
          some (out ++ (es.map (lineOf mem)).flatten)
        else none := by
  intro es
  induction es with
  | nil => intro out; simp [driver]
  | cons e es ih =>
    intro out
    obtain ⟨name, start, end_⟩ := e
    simp only [driver]
    rw [print_eq]
    by_cases hc : end_ ≤ start ∨ end_ ≤ mem.length
    · rw [if_pos hc]
      simp only []
      rw [ih]
      by_cases hr : ∀ e ∈ es, (e.2.2 ≤ e.2.1 ∨ e.2.2 ≤ mem.length)
      · have hall : ∀ e ∈ (name, start, end_) :: es, (e.2.2 ≤ e.2.1 ∨ e.2.2 ≤ mem.length) := by
          intro e he
          rcases List.mem_cons.mp he with rfl | he
          · exact hc
          · exact hr e he
        rw [if_pos hr, if_pos hall]
        simp [lineOf, List.append_assoc]
      · have hall : ¬ ∀ e ∈ (name, start, end_) :: es,
            (e.2.2 ≤ e.2.1 ∨ e.2.2 ≤ mem.length) :=
          fun h => hr (fun e he => h e (List.mem_cons_of_mem _ he))
        rw [if_neg hr, if_neg hall]
    · have hall : ¬ ∀ e ∈ (name, start, end_) :: es,
          (e.2.2 ≤ e.2.1 ∨ e.2.2 ≤ mem.length) :=
        fun h => hc (h _ (List.mem_cons_self _ _))
      rw [if_neg hc, if_neg hall]

theorem driver_of_valid (mem : List Nat) (es : List (List Char × Nat × Nat)) (out : List Char)
    (h : ∀ e ∈ es, entryValid mem e) :
    driver mem es out = some (out ++ (es.map (lineOf mem)).flatten) := by
  rw [driver_eq, if_pos (fun e he => Or.inr (h e he).2)]

/-- The function `main` is the driver run on the nine listed entries after the
marker line, with return value 0. -/
theorem main_eq_driver (env : Env) :
    main env =
      (driver env.mem (names.map (entryOf env)) (printf_marker [])).map
        (fun out => ((0 : Int), out)) := by
  rw [main_eq, driver_eq]
  have hcond : (∀ e ∈ names.map (entryOf env), (e.2.2 ≤ e.2.1 ∨ e.2.2 ≤ env.mem.length)) ↔
      ∀ x ∈ names, symReadable env x := by
    simp [entryOf, symReadable]
  have hdoc : printf_marker [] ++ ((names.map (entryOf env)).map (lineOf env.mem)).flatten =
      document env := by
    simp [document, printf_marker, List.flatMap_def, lineOf, entryOf, symBytes,
      Function.comp_def]
  by_cases hc : ∀ x ∈ names, symReadable env x
  · rw [if_pos hc, if_pos (hcond.mpr hc), hdoc]; rfl
  · rw [if_neg hc, if_neg (fun h => hc (hcond.mp h))]; rfl

/-- C11. Order independence of content: run on a list `L` of entries with valid
ranges and on any permutation `P` of it, the driver writes the entries' lines
in list order; every `print` call appends the line of its entry whatever was
written before; the lines for `P` are the lines for `L` permuted the same way
(the line at position `i` of `P` is the line at position `j` of `L` whenever
the entry at `i` of `P` is the entry at `j` of `L`); and entries with the same
name and the same bytes have the same line. -/
theorem driver_order_independent (mem : List Nat) (L P : List (List Char × Nat × Nat))
    (out : List Char) (hperm : L.Perm P) (hv : ∀ e ∈ L, entryValid mem e) :
    driver mem L out = some (out ++ (L.map (lineOf mem)).flatten) ∧
    driver mem P out = some (out ++ (P.map (lineOf mem)).flatten) ∧
    (∀ e ∈ P, ∀ o : List Char, print mem e.1 e.2.1 e.2.2 o = some (o ++ lineOf mem e)) ∧
    (L.map (lineOf mem)).Perm (P.map (lineOf mem)) ∧
    (∀ i j : Nat, P[i]? = L[j]? → (P.map (lineOf mem))[i]? = (L.map (lineOf mem))[j]?) ∧
    (∀ e1 e2 : List Char × Nat × Nat, e1.1 = e2.1 →
      rangeBytes mem e1.2.1 e1.2.2 = rangeBytes mem e2.2.1 e2.2.2 →
      lineOf mem e1 = lineOf mem e2) := by
  have hvP : ∀ e ∈ P, entryValid mem e := fun e he => hv e (hperm.mem_iff.mpr he)
  refine ⟨driver_of_valid mem L out hv, driver_of_valid mem P out hvP, ?_,
    hperm.map (lineOf mem), ?_, ?_⟩
  · intro e he o
    rw [print_eq, if_pos (Or.inr (hvP e he).2)]
    rfl
  · intro i j hij
    rw [List.getElem?_map, List.getElem?_map, hij]
  · intro e1 e2 hn hb
    simp only [lineOf, hn, hb]

theorem driver_order_independent_witness :
    (∀ e ∈ [("a".toList, 0, 2), ("b".toList, 2, 4)], entryValid [0, 65, 255, 10] e) ∧
    driver [0, 65, 255, 10] [("a".toList, 0, 2), ("b".toList, 2, 4)] [] =
      some ("const char a[] = \"\\x00\\x41\";\n" ++
        "const char b[] = \"\\xff\\x0a\";\n").toList ∧
    driver [0, 65, 255, 10] [("b".toList, 2, 4), ("a".toList, 0, 2)] [] =
      some ("const char b[] = \"\\xff\\x0a\";\n" ++
        "const char a[] = \"\\x00\\x41\";\n").toList :=
  have h := driver_order_independent [0, 65, 255, 10]
    [("a".toList, 0, 2), ("b".toList, 2, 4)] [("b".toList, 2, 4), ("a".toList, 0, 2)] []
    (List.Perm.swap _ _ _) (by decide)
  ⟨by decide, h.1.trans (by decide), h.2.1.trans (by decide)⟩

/-- C12. Determinism: the text `print` appends is a function of the name and of
the bytes of the range alone: two calls with the same name on valid ranges
holding the same bytes, in any two memories, at any two addresses, after any
two earlier outputs, append the same line; and `main` returns the same code and
the same document in any two environments whose nine valid ranges hold the
same bytes. -/
theorem print_deterministic (name : List Char) (mem1 mem2 : List Nat)
    (s1 e1 s2 e2 : Nat) (out1 out2 : List Char) (env1 env2 : Env)
    (h1 : s1 ≤ e1 ∧ e1 ≤ mem1.length) (h2 : s2 ≤ e2 ∧ e2 ≤ mem2.length)
    (hb : rangeBytes mem1 s1 e1 = rangeBytes mem2 s2 e2)
    (hv1 : ∀ x ∈ names, symValid env1 x) (hv2 : ∀ x ∈ names, symValid env2 x)
    (hsame : ∀ x ∈ names, symBytes env1 x = symBytes env2 x) :
    (∃ line : List Char, print mem1 name s1 e1 out1 = some (out1 ++ line) ∧
      print mem2 name s2 e2 out2 = some (out2 ++ line)) ∧
    (∃ doc : List Char, main env1 = some (0, doc) ∧ main env2 = some (0, doc)) := by
  constructor
  · refine ⟨declLine name (rangeBytes mem1 s1 e1), ?_, ?_⟩
    · rw [print_eq, if_pos (Or.inr h1.2)]
    · rw [print_eq, if_pos (Or.inr h2.2), hb]
  · refine ⟨document env1, main_of_valid env1 hv1, ?_⟩
    rw [main_of_valid env2 hv2]
    have hdoc : document env2 = document env1 := by
      unfold document
      congr 1
      apply List.flatMap_congr
      intro x hx
      rw [hsame x hx]
    rw [hdoc]

set_option maxRecDepth 1000000 in
theorem print_deterministic_witness :
    ((1 ≤ 3 ∧ 3 ≤ [9, 0, 65, 7].length) ∧ (0 ≤ 2 ∧ 2 ≤ [256, 65].length) ∧
      rangeBytes [9, 0, 65, 7] 1 3 = rangeBytes [256, 65] 0 2) ∧
    ((∀ x ∈ names, symValid sampleEnv x) ∧ (∀ x ∈ names, symValid sampleEnvMoved x) ∧
      ∀ x ∈ names, symBytes sampleEnv x = symBytes sampleEnvMoved x) ∧
    (∃ line : List Char, print [9, 0, 65, 7] "s".toList 1 3 [] = some ([] ++ line) ∧
      print [256, 65] "s".toList 0 2 ['z'] = some (['z'] ++ line)) ∧
    (∃ doc : List Char, main sampleEnv = some (0, doc) ∧ main sampleEnvMoved = some (0, doc)) :=
  ⟨by decide, by decide,
    print_deterministic "s".toList [9, 0, 65, 7] [256, 65] 1 3 0 2 [] ['z'] sampleEnv
      sampleEnvMoved (by decide) (by decide) (by decide) (by decide) (by decide) (by decide)⟩

theorem body_no_quote {b : List Nat} (hb : ∀ v ∈ b, v < 256) :
    ∀ c ∈ b.flatMap escape, c ≠ '\"' := by
  intro c hc hcq
  have := mem_body_alphabet hb c hc
  rw [hcq] at this
  revert this
  decide

/-- A declaration line determines its name and its byte sequence, whatever
characters the name is made of. -/
theorem declLine_injective {n1 n2 : List Char} {b1 b2 : List Nat}
    (hb1 : ∀ v ∈ b1, v < 256) (hb2 : ∀ v ∈ b2, v < 256)
    (h : declLine n1 b1 = declLine n2 b2) : n1 = n2 ∧ b1 = b2 := by
  have hl1 := literalOf_declLine n1 b1 (body_no_quote hb1)
  have hl2 := literalOf_declLine n2 b2 (body_no_quote hb2)
  rw [h, hl2] at hl1
  have hbody : b2.flatMap escape = b1.flatMap escape := Option.some.inj hl1
  have hu1 := unescape_body hb1
  rw [← hbody, unescape_body hb2] at hu1
  have hb : b2 = b1 := Option.some.inj hu1
  refine ⟨?_, hb.symm⟩
  subst hb
  simp only [declLine, List.append_assoc] at h
  have h2 := List.append_cancel_left h
  exact List.append_cancel_right h2

/-- C13, as amended. Unambiguous declarations: for all names (whatever their
characters, in particular names made of ASCII letters, digits and underscores)
and all byte sequences, wherever they lie in memory, if two calls of `print`
starting from the same output write the same text, then the names are equal
and the byte sequences are equal. -/
theorem print_unambiguous (n1 n2 out : List Char) (pre1 b1 post1 pre2 b2 post2 : List Nat)
    (hb1 : ∀ v ∈ b1, v < 256) (hb2 : ∀ v ∈ b2, v < 256)
    (h : print (pre1 ++ b1 ++ post1) n1 pre1.length (pre1.length + b1.length) out =
      print (pre2 ++ b2 ++ post2) n2 pre2.length (pre2.length + b2.length) out) :
    n1 = n2 ∧ b1 = b2 := by
  rw [print_bytes pre1 b1 post1 n1 out hb1, print_bytes pre2 b2 post2 n2 out hb2] at h
  exact declLine_injective hb1 hb2 (List.append_cancel_left (Option.some.inj h))

theorem print_unambiguous_witness :
    ((∀ v ∈ [1, 34], v < 256) ∧
      print ([5] ++ [1, 34] ++ []) "a[] = \"".toList 1 3 [] =
        print ([] ++ [1, 34] ++ [8, 8]) "a[] = \"".toList 0 2 []) ∧
    ("a[] = \"".toList = "a[] = \"".toList ∧ [1, 34] = [1, 34]) :=
  have hw : print ([5] ++ [1, 34] ++ []) "a[] = \"".toList [5].length
        ([5].length + [1, 34].length) [] =
      print ([] ++ [1, 34] ++ [8, 8]) "a[] = \"".toList ([] : List Nat).length
        (([] : List Nat).length + [1, 34].length) [] :=
    (print_bytes [5] [1, 34] [] _ [] (by decide)).trans
      (print_bytes [] [1, 34] [8, 8] _ [] (by decide)).symm
  ⟨⟨by decide, hw⟩,
    print_unambiguous "a[] = \"".toList "a[] = \"".toList [] [5] [1, 34] [] [] [1, 34] [8, 8]
      (by decide) (by decide) hw⟩

/-- C13, refuted as stated: no restriction on names is needed. There are no two
different pairs of a name and a byte sequence, with names of any characters
(the characters `[] = "` included), for which `print` writes the same text. -/
theorem print_no_collision :
    ¬ ∃ (n1 n2 : List Char) (b1 b2 : List Nat),
      (∀ v ∈ b1, v < 256) ∧ (∀ v ∈ b2, v < 256) ∧ (n1 ≠ n2 ∨ b1 ≠ b2) ∧
      print b1 n1 0 b1.length [] = print b2 n2 0 b2.length [] := by
  rintro ⟨n1, n2, b1, b2, hb1, hb2, hne, h⟩
  have e1 := print_bytes [] b1 [] n1 [] hb1
  have e2 := print_bytes [] b2 [] n2 [] hb2
  simp only [List.nil_append, List.append_nil, List.length_nil, Nat.zero_add] at e1 e2
  rw [e1, e2] at h
  have hinj := declLine_injective hb1 hb2 (Option.some.inj h)
  rcases hne with hn | hb
  · exact hn hinj.1
  · exact hb hinj.2

theorem greedyGo_digits_body (acc : Nat) (hacc : acc < 256) :
    ∀ (b : List Nat), (∀ v ∈ b, v < 256) →
      greedyGo (.digits acc true) (b.flatMap escape) = some (acc :: b) := by
  intro b
  induction b generalizing acc with
  | nil => intro _; simp [greedyGo, hacc]
  | cons v b ih =>
    intro hb
    have h1 : v < 256 := hb v (List.mem_cons_self v b)
    have h2 : ∀ w ∈ b, w < 256 := fun w hw => hb w (List.mem_cons_of_mem v hw)
    have hd : 16 * (v / 16) + v % 16 = v := Nat.div_add_mod v 16
    have hbs : hexVal '\\' = none := by decide
    rw [List.flatMap_cons, escape_byte h1]
    simp only [List.cons_append, List.nil_append, greedyGo, hbs, hacc, and_self, if_true,
      true_and]
    rw [hexVal_digitChar _ (by omega)]
    simp only [greedyGo]
    rw [hexVal_digitChar _ (Nat.mod_lt _ (by decide))]
    simp only [Nat.mul_zero, Nat.zero_add, hd]
    have hnil : ([] : List Char).append (b.flatMap escape) = b.flatMap escape := rfl
    rw [hnil, ih v h1 h2]
    rfl

theorem unescapeGreedy_body {b : List Nat} (hb : ∀ v ∈ b, v < 256) :
    unescapeGreedy (b.flatMap escape) = some b := by
  cases b with
  | nil => rfl
  | cons v b =>
    have h1 : v < 256 := hb v (List.mem_cons_self v b)
    have h2 : ∀ w ∈ b, w < 256 := fun w hw => hb w (List.mem_cons_of_mem v hw)
    have hd : 16 * (v / 16) + v % 16 = v := Nat.div_add_mod v 16
    rw [unescapeGreedy, List.flatMap_cons, escape_byte h1]
    simp only [List.cons_append, List.nil_append, greedyGo, if_true]
    rw [hexVal_digitChar _ (by omega)]
    simp only [greedyGo]
    rw [hexVal_digitChar _ (Nat.mod_lt _ (by decide))]
    simp only [Nat.mul_zero, Nat.zero_add, hd]
    exact greedyGo_digits_body v h1 b h2

/-- In a literal body followed by the closing text, the character right after
the token of index `i` is the backslash of the next token, or the closing
quote after the last token. -/
theorem body_follower : ∀ (b : List Nat), (∀ v ∈ b, v < 256) → ∀ i, i < b.length →
    (b.flatMap escape ++ "\";\n".toList)[4 * i + 4]? =
      some (if i + 1 < b.length then '\\' else '\"') := by
  intro b
  induction b with
  | nil => intro _ i hi; simp at hi
  | cons v b ih =>
    intro hb i hi
    have h1 : v < 256 := hb v (List.mem_cons_self v b)
    have h2 : ∀ w ∈ b, w < 256 := fun w hw => hb w (List.mem_cons_of_mem v hw)
    rw [List.flatMap_cons, escape_byte h1]
    cases i with
    | zero =>
      cases b with
      | nil => rfl
      | cons w b =>
        have hw : w < 256 := h2 w (List.mem_cons_self w b)
        rw [List.flatMap_cons, escape_byte hw]
        simp
    | succ k =>
      have hk : k < b.length := by simpa using hi
      have hidx : 4 * (k + 1) + 4 = (4 * k + 4) + 4 := by omega
      have hcond : (k + 1 + 1 < (v :: b).length) ↔ (k + 1 < b.length) := by simp
      rw [hidx]
      simp only [List.cons_append, List.nil_append, List.getElem?_cons_succ, hcond]
      exact ih h2 k hk

/-- C14. Safe under greedy hexadecimal escapes: in the text `print` writes, the
two digits of every escape token are followed at once by the backslash of the
next token or, after the last token, by the closing quote, never by a
hexadecimal digit; and the decoder that lets `\x` consume the longest run of
hexadecimal digits decodes the literal body to exactly `b`, for every byte
sequence `b`. -/
theorem print_greedy_safe (name out : List Char) (pre b post : List Nat)
    (hb : ∀ v ∈ b, v < 256) :
    print (pre ++ b ++ post) name pre.length (pre.length + b.length) out =
      some (out ++ ("const char ".toList ++ name ++ "[] = \"".toList ++
        (b.flatMap escape ++ "\";\n".toList))) ∧
    (∀ i, i < b.length → ∃ c : Char,
      (b.flatMap escape ++ "\";\n".toList)[4 * i + 4]? = some c ∧
      (c = '\\' ∨ c = '\"') ∧ (c = '\\' ↔ i + 1 < b.length) ∧ hexVal c = none) ∧
    unescapeGreedy (b.flatMap escape) = some b ∧
    ((print (pre ++ b ++ post) name pre.length (pre.length + b.length) []).bind
      literalOf).bind unescapeGreedy = some b := by
  refine ⟨?_, ?_, unescapeGreedy_body hb, ?_⟩
  · rw [print_bytes pre b post name out hb, declLine]
    simp only [List.append_assoc]
  · intro i hi
    by_cases hn : i + 1 < b.length
    · refine ⟨'\\', ?_, Or.inl rfl, ?_, by decide⟩
      · rw [body_follower b hb i hi, if_pos hn]
      · simp [hn]
    · refine ⟨'\"', ?_, Or.inr rfl, ?_, by decide⟩
      · rw [body_follower b hb i hi, if_neg hn]
      · simp [hn]
  · rw [print_bytes pre b post name [] hb]
    simp [literalOf_declLine name b (body_no_quote hb), unescapeGreedy_body hb]

theorem print_greedy_safe_witness :
    (∀ v ∈ [0, 65, 255], v < 256) ∧
    unescapeGreedy ([0, 65, 255].flatMap escape) = some [0, 65, 255] ∧
    ((print ([7] ++ [0, 65, 255] ++ [9]) "sample".toList 1 4 []).bind literalOf).bind
      unescapeGreedy = some [0, 65, 255] :=
  have h := print_greedy_safe "sample".toList [] [7] [0, 65, 255] [9] (by decide)
  ⟨by decide, h.2.2.1, h.2.2.2⟩

set_option maxRecDepth 1000000 in
theorem alphabet_facts : ∀ c ∈ "\\x0123456789abcdef".toList,
    c ≠ '\"' ∧ c ≠ '\n' ∧ ¬ ('A' ≤ c ∧ c ≤ 'Z') ∧ c.toNat < 128 := by
  decide

theorem declLine_count_quote (name : List Char) {b : List Nat} (hb : ∀ v ∈ b, v < 256) :
    (declLine name b).count '\"' = name.count '\"' + 2 := by
  have h0 : (b.flatMap escape).count '\"' = 0 :=
    List.count_eq_zero.mpr (fun hc => body_no_quote hb _ hc rfl)
  have h2 : "const char ".toList.count '\"' = 0 := by decide
  have h3 : "[] = \"".toList.count '\"' = 1 := by decide
  have h4 : "\";\n".toList.count '\"' = 1 := by decide
  simp only [declLine, List.count_append, h0, h2, h3, h4]
  omega

/-- C15. Literal body alphabet: for every byte sequence `b`, every character of
the literal body `print` writes is a backslash, `x`, a decimal digit or one of
`a`..`f`; so the body holds no double quote, no newline, no upper-case letter
and no character outside ASCII, whatever the bytes are, and the only quote
characters of the line besides those of the name are the opening and the
closing quote. -/
theorem print_body_alphabet (name out : List Char) (pre b post : List Nat)
    (hb : ∀ v ∈ b, v < 256) :
    print (pre ++ b ++ post) name pre.length (pre.length + b.length) out =
      some (out ++ ("const char ".toList ++ name ++ "[] = \"".toList ++
        b.flatMap escape ++ "\";\n".toList)) ∧
    (∀ c ∈ b.flatMap escape, c ∈ "\\x0123456789abcdef".toList) ∧
    (∀ c ∈ b.flatMap escape,
      c ≠ '\"' ∧ c ≠ '\n' ∧ ¬ ('A' ≤ c ∧ c ≤ 'Z') ∧ c.toNat < 128) ∧
    ("const char ".toList ++ name ++ "[] = \"".toList ++
        b.flatMap escape ++ "\";\n".toList).count '\"' = name.count '\"' + 2 := by
  refine ⟨?_, mem_body_alphabet hb, ?_, ?_⟩
  · rw [print_bytes pre b post name out hb, declLine]
  · intro c hc
    exact alphabet_facts c (mem_body_alphabet hb c hc)
  · exact declLine_count_quote name hb

theorem print_body_alphabet_witness :
    (∀ v ∈ [0x22, 0x0A, 0x5C, 0x80, 0xFF], v < 256) ∧
    [0x22, 0x0A, 0x5C, 0x80, 0xFF].flatMap escape = "\\x22\\x0a\\x5c\\x80\\xff".toList ∧
    ∀ c ∈ [0x22, 0x0A, 0x5C, 0x80, 0xFF].flatMap escape,
      c ∈ "\\x0123456789abcdef".toList :=
  ⟨by decide, by decide,
    (print_body_alphabet "k".toList [] [] [0x22, 0x0A, 0x5C, 0x80, 0xFF] []
      (by decide)).2.1⟩

theorem bodyOf_eq (name : List Char) (b : List Nat) :
    bodyOf name b = some ((b.map (· % 256)).flatMap escape) := by
  have hlt : ∀ v ∈ b.map (· % 256), v < 256 := by
    intro v hv
    obtain ⟨w, _, hw⟩ := List.mem_map.mp hv
    rw [← hw]
    exact Nat.mod_lt _ (by decide)
  have hr : rangeBytes b 0 b.length = b.map (· % 256) := by
    simp [rangeBytes]
  unfold bodyOf
  rw [print_eq, if_pos (Or.inr (Nat.le_refl _)), hr]
  simp [literalOf_declLine name _ (body_no_quote hlt)]

/-- C16. Concatenation homomorphism: the literal body `print` produces for the
empty byte sequence is empty; the body for `a ++ b` is the body for `a`
followed by the body for `b`; and the body for a sequence with the byte `v`
somewhere in it is the body of what precedes, the token of `v`, and the body
of what follows, so the token of a byte does not depend on its neighbours. -/
theorem body_concat (name : List Char) (a b : List Nat) (v : Nat) :
    bodyOf name [] = some [] ∧
    (∃ x y : List Char, bodyOf name a = some x ∧ bodyOf name b = some y ∧
      bodyOf name (a ++ b) = some (x ++ y)) ∧
    (∃ x t y : List Char, bodyOf name a = some x ∧ bodyOf name [v] = some t ∧
      bodyOf name b = some y ∧ bodyOf name (a ++ [v] ++ b) = some (x ++ t ++ y)) := by
  refine ⟨by rw [bodyOf_eq]; rfl, ⟨_, _, bodyOf_eq name a, bodyOf_eq name b, ?_⟩,
    ⟨_, _, _, bodyOf_eq name a, bodyOf_eq name [v], bodyOf_eq name b, ?_⟩⟩
  · rw [bodyOf_eq, List.map_append, List.flatMap_append]
  · rw [bodyOf_eq, List.map_append, List.map_append, List.flatMap_append,
      List.flatMap_append]

/-- C17. Inverted range: for every memory, every name and all positions with
`end < start`, `print` reads no byte and completes, writing the same text as
for an empty range, `const char <name>[] = "";` and a newline, with no escape
token. -/
theorem print_inverted_range (mem : List Nat) (name out : List Char) (start end_ : Nat)
    (h : end_ < start) :
    print mem name start end_ out =
      some (out ++ ("const char ".toList ++ name ++ "[] = \"\";\n".toList)) ∧
    print mem name start end_ out = print mem name start start out ∧
    printLoopTrace mem end_ start (printf_header out name) [] =
      some (printf_header out name, []) := by
  have hle : end_ ≤ start := Nat.le_of_lt h
  have hp : print mem name start end_ out =
      some (out ++ ("const char ".toList ++ name ++ "[] = \"\";\n".toList)) := by
    rw [print_eq, if_pos (Or.inl hle), rangeBytes_of_le mem hle]
    simp [declLine]
  refine ⟨hp, ?_, ?_⟩
  · rw [hp, print_eq, if_pos (Or.inl (Nat.le_refl _)), rangeBytes_of_le mem (Nat.le_refl _)]
    simp [declLine]
  · rw [printLoopTrace_eq mem end_ (end_ - start) start _ _ rfl, if_pos (Or.inl hle),
      rangeBytes_of_le mem hle, Nat.sub_eq_zero_of_le hle]
    simp

theorem print_inverted_range_witness :
    5 < 9 ∧
    print [1, 2, 3] "inv".toList 9 5 [] = some "const char inv[] = \"\";\n".toList :=
  ⟨by decide, (print_inverted_range [1, 2, 3] "inv".toList [] 9 5 (by decide)).1⟩

end KvmGen
